import Mathlib

/-!
Verification development for the tuning-graph constraint engine of
`src/scripts/static/graph_interactivity.js`.

The JavaScript source is shallowly embedded below. Pitches are modelled as
`Int` (JS numbers are used only at integer values by this code), JS `null` /
`undefined` results as `Option`, and the global `minPitchPerString` /
`maxPitchPerString` arrays as an explicit `Constraints` value threaded through
every call. The vis.js graph that the code queries (`network.body.data.nodes`,
edge objects with `from` / `to` / `pitch_vector`) is modelled by a `Network`
record. `from` is a Lean keyword, so edge fields are named `src` / `dst`.
-/

/-- List of note names indexed by semitone offset, from `NOTE_NAMES` in the
source. -/
def NOTE_NAMES : List String :=
  ["C", "C#", "D", "D#", "E", "F"] ++ ["F#", "G", "G#", "A", "A#", "B"]

/-- Semitone offset table `{C: 0, D: 2, E: 4, F: 5, G: 7, A: 9, B: 11}` used by
`noteToMidi`; `none` for characters that are not an upper-case note letter. -/
def letterOffset : Char → Option Int
  | 'C' => some 0
  | 'D' => some 2
  | 'E' => some 4
  | 'F' => some 5
  | 'G' => some 7
  | 'A' => some 9
  | 'B' => some 11
  | _ => none

/-- Character-level model of JS `String.prototype.trim`: drop whitespace from
both ends. -/
def trimChars (cs : List Char) : List Char :=
  ((cs.dropWhile Char.isWhitespace).reverse.dropWhile Char.isWhitespace).reverse

/-- Value of a digit string, as computed by JS `parseInt` on an all-digit
string. -/
def digitsToNat (cs : List Char) : Nat :=
  cs.foldl (fun a c => a * 10 + (c.toNat - 48)) 0

/-- Parse a non-empty all-digit character sequence (the `\d+$` part of the
`noteToMidi` regex). -/
def parseDigits (cs : List Char) : Option Nat :=
  if cs ≠ [] ∧ cs.all Char.isDigit then some (digitsToNat cs) else none

/-- Parse the `(-?\d+)$` octave group of the `noteToMidi` regex, including the
optional leading minus sign. -/
def parseSignedInt (cs : List Char) : Option Int :=
  match cs with
  | '-' :: rest => (parseDigits rest).map (fun n => -(n : Int))
  | _ => (parseDigits cs).map (fun n => (n : Int))

/-- Model of `noteToMidi` on an already-trimmed character list. The source
matches `/^([A-Ga-g])([#b]?)(-?\d+)$/`, upper-cases the letter, applies the
offset table with `+1` for `#` and `-1` for `b`, and returns
`(octave + 1) * 12 + semitoneOffset`. The regex accidental group never
backtracks usefully (an octave cannot start with `#` or `b`), so committing to
the accidental when present is exact. -/
def noteToMidiChars : List Char → Option Int
  | [] => none
  | c :: rest =>
    match letterOffset c.toUpper with
    | none => none
    | some offset =>
      match rest with
      | '#' :: r => (parseSignedInt r).map (fun oct => (oct + 1) * 12 + (offset + 1))
      | 'b' :: r => (parseSignedInt r).map (fun oct => (oct + 1) * 12 + (offset - 1))
      | r => (parseSignedInt r).map (fun oct => (oct + 1) * 12 + offset)

/-- Model of `noteToMidi` from the source: trim, then parse; `none` models the
JS `null` returned on regex failure. -/
def noteToMidi (note : String) : Option Int :=
  noteToMidiChars (trimChars note.toList)

/-- Model of `midiToNote` from the source: `NOTE_NAMES[midiNumber % 12]`
concatenated with `Math.floor(midiNumber / 12) - 1`. JS `%` keeps the sign of
the dividend (`Int.tmod`); a negative index reads as `undefined` in JS, which
string-coerces to `"undefined"`. `Math.floor` of an exact division is
`Int.fdiv`. -/
def midiToNote (midiNumber : Int) : String :=
  let idx := Int.tmod midiNumber 12
  let note := if 0 ≤ idx then NOTE_NAMES.getD idx.toNat "undefined" else "undefined"
  note ++ toString (Int.fdiv midiNumber 12 - 1)

/-- Split a character list into maximal runs of non-whitespace characters,
accumulating the current (reversed) run in `acc`. -/
def splitTokens : List Char → List Char → List String
  | [], acc => if acc.isEmpty then [] else [String.mk acc.reverse]
  | c :: rest, acc =>
    if c.isWhitespace then
      if acc.isEmpty then splitTokens rest [] else
        String.mk acc.reverse :: splitTokens rest []
    else
      splitTokens rest (c :: acc)

/-- Model of `tuningLabel.trim().split(/\s+/)`: on a trimmed non-empty string
the regex split yields the maximal non-whitespace runs; on an empty trimmed
string JS yields `[""]` (a single empty token). -/
def jsTokenize (s : String) : List String :=
  let t := trimChars s.toList
  if t.isEmpty then [""] else splitTokens t []

/-- First phase of `parseMonotonicTuning`: map each raw token `note` to
`noteToMidi(note + "0") % 12` (JS `%`, i.e. `Int.tmod`), failing on the first
token `noteToMidi` rejects. -/
def tokensToPitchClasses : List String → Option (List Int)
  | [] => some []
  | note :: rest =>
    match noteToMidi (note ++ "0") with
    | none => none
    | some midi => (tokensToPitchClasses rest).map (fun pcs => Int.tmod midi 12 :: pcs)

/-- Closed form of the octave-search loop in `parseMonotonicTuning`
(`let octave = 0; while (octave * 12 + pc <= prev) octave++`): the least value
of the form `12 * k + pc` with `k : Nat` that is strictly greater than `prev`.
`none` stands for the initial `prev = -Infinity`, for which the loop exits at
once with octave `0`. -/
def nextMonotonicPitch (pc : Int) (prev : Option Int) : Int :=
  match prev with
  | none => pc
  | some p => if p < pc then pc else 12 * ((p - pc).toNat / 12 + 1) + pc

/-- Second phase of `parseMonotonicTuning`: walk the pitch classes, choosing
for each the smallest realization strictly above the previous pitch. -/
def buildMonotonic : List Int → Option Int → List Int
  | [], _ => []
  | pc :: pcs, prev =>
    let p := nextMonotonicPitch pc prev
    p :: buildMonotonic pcs (some p)

/-- Model of `parseMonotonicTuning` from the source: split the label on
whitespace, convert every token via `noteToMidi(token + "0") % 12` (returning
`none`, the JS `null`, if any token fails), then build the monotonically
increasing absolute pitch list. -/
def parseMonotonicTuning (tuningLabel : String) : Option (List Int) :=
  match tokensToPitchClasses (jsTokenize tuningLabel) with
  | none => none
  | some pcs => some (buildMonotonic pcs none)

/-- Snapshot of the two mutable global constraint arrays `minPitchPerString`
and `maxPitchPerString`. -/
structure Constraints where
  minPitchPerString : List Int
  maxPitchPerString : List Int
deriving DecidableEq, Repr

/-- Initial constraint values from the source:
`[40-4, 45-4, 50-4, 55-4, 59-4, 64-4]` and `[40, 45, 50, 55, 59, 64]`. -/
def defaultConstraints : Constraints :=
  ⟨[36, 41, 46, 51, 55, 60], [40, 45, 50, 55, 59, 64]⟩

/-- Data carried by a graph node; `tuning_label` is absent (`none`) when the
node has no tuning data. -/
structure NodeData where
  tuning_label : Option String
deriving DecidableEq, Repr

/-- Data carried by a stored edge. The source keeps `pitch_vector` as a
comma-separated string and parses it with `split(',').map(Number)`; it is
modelled here as the parsed list, with `none` for an absent (or, being falsy,
empty) attribute. Fields `src` / `dst` model the stored `from` / `to`. -/
structure EdgeData where
  src : Nat
  dst : Nat
  pitch_vector : Option (List Int)
deriving DecidableEq, Repr

/-- Read-only model of the vis.js network the script queries: a node store and
an edge store. -/
structure Network where
  nodes : Nat → Option NodeData
  edges : List EdgeData

/-- Predicate used by `getPitchVector` to locate the connecting edge:
`(edge.from === fromId && edge.to === toId) || (edge.to === fromId && edge.from === toId)`. -/
def edgeMatches (fromId toId : Nat) (e : EdgeData) : Bool :=
  (e.src == fromId && e.dst == toId) || (e.dst == fromId && e.src == toId)

/-- Model of `getPitchVector` from the source: find the first stored edge
connecting the two nodes in either direction, return its vector when traversed
in the stored direction and the element-wise negation otherwise; `none` when
no edge or no vector exists. -/
def getPitchVector (net : Network) (fromId toId : Nat) : Option (List Int) :=
  match net.edges.find? (edgeMatches fromId toId) with
  | none => none
  | some e =>
    match e.pitch_vector with
    | none => none
    | some vector =>
      if e.src == fromId then some vector else some (vector.map (fun x => -x))

/-- Model of `getAdjacentNodes` from the source: for every incident edge add
the opposite endpoint; the JS `Set` keeps each id once. -/
def getAdjacentNodes (net : Network) (nodeId : Nat) : List Nat :=
  (((net.edges.filter (fun e => e.src == nodeId || e.dst == nodeId)).map
    (fun e => if e.src == nodeId then e.dst else e.src))).dedup

/-- Running maximum against a bound initialized to `-Infinity`, modelled with
`none` for the infinite initial value (`Math.max(-Infinity, x) = x`). -/
def omax (a : Option Int) (x : Int) : Option Int :=
  match a with
  | none => some x
  | some v => some (max v x)

/-- Running minimum against a bound initialized to `Infinity`, modelled with
`none` for the infinite initial value (`Math.min(Infinity, x) = x`). -/
def omin (a : Option Int) (x : Int) : Option Int :=
  match a with
  | none => some x
  | some v => some (min v x)

/-- Fold of `Math.max` starting from `-Infinity` over a list. -/
def foldMax (l : List Int) : Option Int :=
  l.foldl omax none

/-- Fold of `Math.min` starting from `Infinity` over a list. -/
def foldMin (l : List Int) : Option Int :=
  l.foldl omin none

/-- Comparison `lower <= upper` where `none` on the left is `-Infinity` and
`none` on the right is `Infinity`. -/
def leOpt : Option Int → Option Int → Bool
  | none, _ => true
  | some _, none => true
  | some a, some b => a ≤ b

/-- Per-string window lower ends `minPitchPerString[i] - t[i]` for
`i = 0 .. 5`, computed by the first loop of `simulateAbsolutePitches`. -/
def initLowers (c : Constraints) (t : List Int) : List Int :=
  (List.range 6).map (fun i => c.minPitchPerString.getD i 0 - t.getD i 0)

/-- Per-string window upper ends `maxPitchPerString[i] - t[i]` for
`i = 0 .. 5`. -/
def initUppers (c : Constraints) (t : List Int) : List Int :=
  (List.range 6).map (fun i => c.maxPitchPerString.getD i 0 - t.getD i 0)

/-- Initial-transposition step of `simulateAbsolutePitches`: intersect the six
per-string windows (`lower`/`upper` accumulated from `-Infinity`/`Infinity`),
fail when `lower > upper`, otherwise pick `Math.floor(upper)`, which on
integers is `upper` itself. The wildcard branch is unreachable because
`List.range 6` is non-empty. -/
def initialTransposition (c : Constraints) (t : List Int) : Option Int :=
  match foldMax (initLowers c t), foldMin (initUppers c t) with
  | some lower, some upper => if lower > upper then none else some upper
  | _, _ => none

/-- Element-wise `current.map((p, idx) => p + vector[idx])`; an out-of-range
`vector[idx]` is JS `undefined` (arithmetic on it yields `NaN`), modelled by
the default `0`, which no claim exercises. -/
def jsAddVector (current vector : List Int) : List Int :=
  current.enum.map (fun pair => pair.2 + vector.getD pair.1 0)

/-- Edge-walking loop of `simulateAbsolutePitches` over the consecutive pairs
of the path, accumulating one absolute tuning per traversed edge. -/
def simSteps (net : Network) : List Int → List (Nat × Nat) → Option (List (List Int))
  | _, [] => some []
  | current, (fromId, toId) :: rest =>
    match getPitchVector net fromId toId with
    | none => none
    | some vector =>
      let next := jsAddVector current vector
      (simSteps net next rest).map (fun tl => next :: tl)

/-- Model of `simulateAbsolutePitches` from the source. Every failure — empty
path or unresolvable first node, missing or unparsable tuning label, empty
transposition window, missing edge or vector along the path — returns the same
JS `null`, modelled as `none`. On success the result holds one absolute tuning
per path node. -/
def simulateAbsolutePitches (net : Network) (c : Constraints) (path : List Nat) :
    Option (List (List Int)) :=
  match path with
  | [] => none
  | first :: _ =>
    match net.nodes first with
    | none => none
    | some node =>
      match node.tuning_label with
      | none => none
      | some label =>
        match parseMonotonicTuning label with
        | none => none
        | some relativeTuning =>
          match initialTransposition c relativeTuning with
          | none => none
          | some transposition =>
            let current := relativeTuning.map (fun x => x + transposition)
            match simSteps net current (path.zip path.tail) with
            | none => none
            | some rest => some (current :: rest)

/-- Window lower ends `minPitchPerString[stringIdx] - pitch` collected by the
nested loops of `isTranspositionPossible` (strings outermost, tunings
innermost); only the set of collected values matters for the running
`Math.max`. -/
def windowLowers (c : Constraints) (rows : List (List Int)) : List Int :=
  ((List.range 6).map (fun i => rows.map (fun t => c.minPitchPerString.getD i 0 - t.getD i 0))).flatten

/-- Window upper ends `maxPitchPerString[stringIdx] - pitch` collected by the
nested loops of `isTranspositionPossible`. -/
def windowUppers (c : Constraints) (rows : List (List Int)) : List Int :=
  ((List.range 6).map (fun i => rows.map (fun t => c.maxPitchPerString.getD i 0 - t.getD i 0))).flatten

/-- Model of `isTranspositionPossible` from the source: `false` when any entry
of the sequence is `null`; otherwise intersect every per-string per-tuning
shift window into `[globalLowerBound, globalUpperBound]` (accumulated from
`-Infinity`/`Infinity`) and test `globalLowerBound <= globalUpperBound`. -/
def isTranspositionPossible (c : Constraints) (pitches : List (Option (List Int))) : Bool :=
  if pitches.any (fun p => p.isNone) then false
  else
    let rows := pitches.filterMap id
    leOpt (foldMax (windowLowers c rows)) (foldMin (windowUppers c rows))

/-- Model of JS `path[path.length - 1]` for the non-empty paths on which the
source uses it. -/
def jsLast (l : List Nat) : Nat :=
  l.getD (l.length - 1) 0

/-- Model of `canAddNode` from the source: `true` for an empty path; `false`
for a candidate not adjacent to the last path node; otherwise simulate the
extended path and check `isTranspositionPossible` (the simulated rows are
plain arrays, never `null` entries). -/
def canAddNode (net : Network) (c : Constraints) (gigsetPath : List Nat)
    (candidateId : Nat) : Bool :=
  if gigsetPath.length = 0 then
    true
  else
    let lastId := jsLast gigsetPath
    let isAdjacent := (getAdjacentNodes net lastId).contains candidateId
    if !isAdjacent then
      false
    else
      match simulateAbsolutePitches net c (gigsetPath ++ [candidateId]) with
      | none => false
      | some pitches => isTranspositionPossible c (pitches.map some)

/-- Which of the two bounds a constraint update targets. -/
inductive Bound where
  | min : Bound
  | max : Bound
deriving DecidableEq, Repr

/-- Model of the `minInput.onchange` / `maxInput.onchange` handlers (the
spec's `setConstraint`): parse the pitch with `noteToMidi`; on failure leave
the constraints untouched and report `false` (the red-border indicator), on
success overwrite the addressed entry and report `true`. -/
def setConstraint (c : Constraints) (i : Nat) (b : Bound) (pitch : String) :
    Constraints × Bool :=
  match noteToMidi pitch with
  | none => (c, false)
  | some midi =>
    match b with
    | .min => ({ c with minPitchPerString := c.minPitchPerString.set i midi }, true)
    | .max => ({ c with maxPitchPerString := c.maxPitchPerString.set i midi }, true)

/-- Modelled from the spec: the note-name grammar of section 4.1, "each
`[A-G][#b]?` plus optional octave digits" (the implementation also accepts
lower-case letters, which the spec's Normalizer treats identically). This
definition exists only to state the claims that quantify over
grammar-matching tokens; the implementation's own acceptance condition is
`noteToMidi (token ++ "0")`. -/
def specNoteGrammar (tok : String) : Bool :=
  match tok.toList with
  | [] => false
  | c :: rest =>
    (letterOffset c.toUpper).isSome &&
      (match rest with
       | a :: r => if a == '#' || a == 'b' then r.all Char.isDigit else rest.all Char.isDigit
       | [] => true)

/-- Strict lower bound where `none` is `-Infinity`. -/
def OptLt : Option Int → Int → Prop
  | none, _ => True
  | some p, x => p < x

/-- Specification predicate: `p` is the smallest value of the form
`12 * k + pc` (`k` a non-negative integer) strictly greater than `prev`. -/
def MinimalAbove (pc : Int) (prev : Option Int) (p : Int) : Prop :=
  (∃ k : Nat, p = 12 * k + pc) ∧ OptLt prev p ∧
    ∀ q : Int, (∃ k : Nat, q = 12 * k + pc) → OptLt prev q → p ≤ q

/-- Specification predicate relating a pitch-class list to its minimal
monotonic realization, element by element. -/
def MinimalChain : List Int → Option Int → List Int → Prop
  | [], _, [] => True
  | pc :: pcs, prev, p :: ps => MinimalAbove pc prev p ∧ MinimalChain pcs (some p) ps
  | _, _, _ => False


/-! Helper lemmas about the `-Infinity` / `Infinity` folds. -/

/-- Folding `omax` from a finite seed is folding `max`. -/
theorem foldl_omax_some (l : List Int) : ∀ a : Int, l.foldl omax (some a) = some (l.foldl max a) := by
  induction l with
  | nil => intro a; rfl
  | cons x xs ih => intro a; simp [List.foldl_cons, omax, ih]

/-- Folding `omin` from a finite seed is folding `min`. -/
theorem foldl_omin_some (l : List Int) : ∀ a : Int, l.foldl omin (some a) = some (l.foldl min a) := by
  induction l with
  | nil => intro a; rfl
  | cons x xs ih => intro a; simp [List.foldl_cons, omin, ih]

/-- On a non-empty list `foldMax` is the finite `max` fold. -/
theorem foldMax_cons (x : Int) (l : List Int) : foldMax (x :: l) = some (l.foldl max x) := by
  simp [foldMax, List.foldl_cons, omax, foldl_omax_some]

/-- On a non-empty list `foldMin` is the finite `min` fold. -/
theorem foldMin_cons (x : Int) (l : List Int) : foldMin (x :: l) = some (l.foldl min x) := by
  simp [foldMin, List.foldl_cons, omin, foldl_omin_some]

/-- A bound dominates a `max` fold exactly when it dominates the seed and each
element. -/
theorem foldl_max_le_iff (l : List Int) : ∀ a T : Int, l.foldl max a ≤ T ↔ a ≤ T ∧ ∀ x ∈ l, x ≤ T := by
  induction l with
  | nil => intro a T; simp
  | cons x xs ih =>
    intro a T
    rw [List.foldl_cons, ih, max_le_iff]
    constructor
    · rintro ⟨⟨h1, h2⟩, h3⟩
      exact ⟨h1, fun y hy => (List.mem_cons.mp hy).elim (fun e => e ▸ h2) (h3 y)⟩
    · rintro ⟨h1, h2⟩
      exact ⟨⟨h1, h2 x (List.mem_cons_self _ _)⟩, fun y hy => h2 y (List.mem_cons_of_mem x hy)⟩

/-- A bound is below a `min` fold exactly when it is below the seed and each
element. -/
theorem le_foldl_min_iff (l : List Int) : ∀ a T : Int, T ≤ l.foldl min a ↔ T ≤ a ∧ ∀ x ∈ l, T ≤ x := by
  induction l with
  | nil => intro a T; simp
  | cons x xs ih =>
    intro a T
    rw [List.foldl_cons, ih, le_min_iff]
    constructor
    · rintro ⟨⟨h1, h2⟩, h3⟩
      exact ⟨h1, fun y hy => (List.mem_cons.mp hy).elim (fun e => e ▸ h2) (h3 y)⟩
    · rintro ⟨h1, h2⟩
      exact ⟨⟨h1, h2 x (List.mem_cons_self _ _)⟩, fun y hy => h2 y (List.mem_cons_of_mem x hy)⟩

/-- A `max` fold is the seed or one of the elements. -/
theorem foldl_max_mem (l : List Int) : ∀ a : Int, l.foldl max a = a ∨ l.foldl max a ∈ l := by
  induction l with
  | nil => intro a; left; rfl
  | cons x xs ih =>
    intro a
    rw [List.foldl_cons]
    rcases ih (max a x) with h | h
    · rcases max_cases a x with ⟨he, _⟩ | ⟨he, _⟩
      · left; rw [h, he]
      · right; rw [h, he]; exact (List.mem_cons_self _ _)
    · right; exact List.mem_cons_of_mem x h

/-- A `min` fold is the seed or one of the elements. -/
theorem foldl_min_mem (l : List Int) : ∀ a : Int, l.foldl min a = a ∨ l.foldl min a ∈ l := by
  induction l with
  | nil => intro a; left; rfl
  | cons x xs ih =>
    intro a
    rw [List.foldl_cons]
    rcases ih (min a x) with h | h
    · rcases min_cases a x with ⟨he, _⟩ | ⟨he, _⟩
      · left; rw [h, he]
      · right; rw [h, he]; exact (List.mem_cons_self _ _)
    · right; exact List.mem_cons_of_mem x h

/-- On a non-empty list, `foldMax` yields an attained upper bound. -/
theorem foldMax_ne_nil (l : List Int) (h : l ≠ []) :
    ∃ M, foldMax l = some M ∧ (∀ y ∈ l, y ≤ M) ∧ M ∈ l := by
  match l with
  | x :: xs =>
    refine ⟨xs.foldl max x, foldMax_cons x xs, ?_, ?_⟩
    · intro y hy
      have hr := (foldl_max_le_iff xs x (xs.foldl max x)).mp le_rfl
      exact (List.mem_cons.mp hy).elim (fun e => e ▸ hr.1) (hr.2 y)
    · rcases foldl_max_mem xs x with h' | h'
      · rw [h']; exact (List.mem_cons_self _ _)
      · exact List.mem_cons_of_mem x h'

/-- On a non-empty list, `foldMin` yields an attained lower bound. -/
theorem foldMin_ne_nil (l : List Int) (h : l ≠ []) :
    ∃ M, foldMin l = some M ∧ (∀ y ∈ l, M ≤ y) ∧ M ∈ l := by
  match l with
  | x :: xs =>
    refine ⟨xs.foldl min x, foldMin_cons x xs, ?_, ?_⟩
    · intro y hy
      have hr := (le_foldl_min_iff xs x (xs.foldl min x)).mp le_rfl
      exact (List.mem_cons.mp hy).elim (fun e => e ▸ hr.1) (hr.2 y)
    · rcases foldl_min_mem xs x with h' | h'
      · rw [h']; exact (List.mem_cons_self _ _)
      · exact List.mem_cons_of_mem x h'

/-- Central window lemma: the accumulated `lower <= upper` test succeeds
exactly when a common integer value lies in every window. -/
theorem leOpt_foldMax_foldMin (A B : List Int) :
    leOpt (foldMax A) (foldMin B) = true ↔
      ∃ T : Int, (∀ x ∈ A, x ≤ T) ∧ (∀ y ∈ B, T ≤ y) := by
  match A, B with
  | [], [] =>
    constructor
    · intro _; exact ⟨0, by simp, by simp⟩
    · intro _; rfl
  | [], y :: ys =>
    constructor
    · intro _
      refine ⟨ys.foldl min y, by simp, ?_⟩
      intro z hz
      have hr := (le_foldl_min_iff ys y (ys.foldl min y)).mp le_rfl
      exact (List.mem_cons.mp hz).elim (fun e => e ▸ hr.1) (hr.2 z)
    · intro _; rw [foldMin_cons]; rfl
  | x :: xs, [] =>
    constructor
    · intro _
      refine ⟨xs.foldl max x, ?_, by simp⟩
      intro z hz
      have hr := (foldl_max_le_iff xs x (xs.foldl max x)).mp le_rfl
      exact (List.mem_cons.mp hz).elim (fun e => e ▸ hr.1) (hr.2 z)
    · intro _; rw [foldMax_cons]; rfl
  | x :: xs, y :: ys =>
    rw [foldMax_cons, foldMin_cons]
    show (decide (xs.foldl max x ≤ ys.foldl min y) = true) ↔ _
    rw [decide_eq_true_iff]
    constructor
    · intro h
      refine ⟨xs.foldl max x, ?_, ?_⟩
      · intro z hz
        have hr := (foldl_max_le_iff xs x (xs.foldl max x)).mp le_rfl
        exact (List.mem_cons.mp hz).elim (fun e => e ▸ hr.1) (hr.2 z)
      · intro z hz
        have hr := (le_foldl_min_iff ys y (ys.foldl min y)).mp le_rfl
        exact le_trans h ((List.mem_cons.mp hz).elim (fun e => e ▸ hr.1) (hr.2 z))
    · rintro ⟨T, hA, hB⟩
      have h1 : xs.foldl max x ≤ T :=
        (foldl_max_le_iff xs x T).mpr ⟨hA x (List.mem_cons_self _ _), fun z hz => hA z (List.mem_cons_of_mem x hz)⟩
      have h2 : T ≤ ys.foldl min y :=
        (le_foldl_min_iff ys y T).mpr ⟨hB y (List.mem_cons_self _ _), fun z hz => hB z (List.mem_cons_of_mem y hz)⟩
      exact le_trans h1 h2

/-- Membership description of the collected window lower ends. -/
theorem mem_windowLowers (c : Constraints) (rows : List (List Int)) (x : Int) :
    x ∈ windowLowers c rows ↔
      ∃ i, i < 6 ∧ ∃ t ∈ rows, x = c.minPitchPerString.getD i 0 - t.getD i 0 := by
  simp only [windowLowers, List.mem_flatten, List.mem_map, List.mem_range]
  constructor
  · rintro ⟨l, ⟨i, hi, rfl⟩, hx⟩
    rcases List.mem_map.mp hx with ⟨t, ht, rfl⟩
    exact ⟨i, hi, t, ht, rfl⟩
  · rintro ⟨i, hi, t, ht, rfl⟩
    exact ⟨_, ⟨i, hi, rfl⟩, List.mem_map.mpr ⟨t, ht, rfl⟩⟩

/-- Membership description of the collected window upper ends. -/
theorem mem_windowUppers (c : Constraints) (rows : List (List Int)) (x : Int) :
    x ∈ windowUppers c rows ↔
      ∃ i, i < 6 ∧ ∃ t ∈ rows, x = c.maxPitchPerString.getD i 0 - t.getD i 0 := by
  simp only [windowUppers, List.mem_flatten, List.mem_map, List.mem_range]
  constructor
  · rintro ⟨l, ⟨i, hi, rfl⟩, hx⟩
    rcases List.mem_map.mp hx with ⟨t, ht, rfl⟩
    exact ⟨i, hi, t, ht, rfl⟩
  · rintro ⟨i, hi, t, ht, rfl⟩
    exact ⟨_, ⟨i, hi, rfl⟩, List.mem_map.mpr ⟨t, ht, rfl⟩⟩

/-- Characterization of `isTranspositionPossible` on a sequence with no `null`
entries: it holds exactly when one global transposition places every string of
every tuning inside its bound. -/
theorem isTranspositionPossible_iff_exists (c : Constraints) (rows : List (List Int)) :
    isTranspositionPossible c (rows.map some) = true ↔
      ∃ T : Int, ∀ t ∈ rows, ∀ i, i < 6 →
        c.minPitchPerString.getD i 0 ≤ t.getD i 0 + T ∧
          t.getD i 0 + T ≤ c.maxPitchPerString.getD i 0 := by
  have hany : (rows.map some).any (fun p => p.isNone) = false := by simp
  have hfm : (rows.map some).filterMap id = rows := by
    simp [List.filterMap_map]
  rw [isTranspositionPossible, hany]
  simp only [Bool.false_eq_true, if_false, hfm]
  rw [leOpt_foldMax_foldMin]
  constructor
  · rintro ⟨T, hA, hB⟩
    refine ⟨T, fun t ht i hi => ⟨?_, ?_⟩⟩
    · have := hA _ ((mem_windowLowers c rows _).mpr ⟨i, hi, t, ht, rfl⟩)
      omega
    · have := hB _ ((mem_windowUppers c rows _).mpr ⟨i, hi, t, ht, rfl⟩)
      omega
  · rintro ⟨T, h⟩
    refine ⟨T, fun x hx => ?_, fun y hy => ?_⟩
    · rcases (mem_windowLowers c rows x).mp hx with ⟨i, hi, t, ht, rfl⟩
      have := (h t ht i hi).1
      omega
    · rcases (mem_windowUppers c rows y).mp hy with ⟨i, hi, t, ht, rfl⟩
      have := (h t ht i hi).2
      omega

/-! Helper lemmas about the Normalizer. -/

/-- The closed-form octave search returns exactly the smallest realization of
the pitch class strictly above `prev`. -/
theorem nextMonotonicPitch_minimal (pc : Int) (prev : Option Int) :
    MinimalAbove pc prev (nextMonotonicPitch pc prev) := by
  cases prev with
  | none =>
    refine ⟨⟨0, by simp [nextMonotonicPitch]⟩, trivial, ?_⟩
    rintro q ⟨k, rfl⟩ _
    simp only [nextMonotonicPitch]
    omega
  | some p =>
    by_cases h : p < pc
    · refine ⟨⟨0, by simp [nextMonotonicPitch, h]⟩, ?_, ?_⟩
      · simp only [nextMonotonicPitch, if_pos h]
        exact h
      · rintro q ⟨k, rfl⟩ hq
        simp only [nextMonotonicPitch, if_pos h]
        omega
    · refine ⟨⟨(p - pc).toNat / 12 + 1, by simp [nextMonotonicPitch, h]⟩, ?_, ?_⟩
      · simp only [nextMonotonicPitch, if_neg h]
        show p < _
        omega
      · rintro q ⟨k, rfl⟩ hq
        simp only [nextMonotonicPitch, if_neg h]
        have hq' : p < 12 * (k : Int) + pc := hq
        omega

/-- The monotonic build realizes the minimal-chain specification. -/
theorem buildMonotonic_minimalChain :
    ∀ (pcs : List Int) (prev : Option Int), MinimalChain pcs prev (buildMonotonic pcs prev) := by
  intro pcs
  induction pcs with
  | nil => intro prev; trivial
  | cons pc pcs ih =>
    intro prev
    exact ⟨nextMonotonicPitch_minimal pc prev, ih (some (nextMonotonicPitch pc prev))⟩

/-- The monotonic build preserves length. -/
theorem buildMonotonic_length :
    ∀ (pcs : List Int) (prev : Option Int), (buildMonotonic pcs prev).length = pcs.length := by
  intro pcs
  induction pcs with
  | nil => intro prev; rfl
  | cons pc pcs ih => intro prev; simp [buildMonotonic, ih]

/-- The monotonic build is strictly increasing and bounded below by `prev`. -/
theorem buildMonotonic_pairwise :
    ∀ (pcs : List Int) (prev : Option Int),
      List.Pairwise (· < ·) (buildMonotonic pcs prev) ∧
        ∀ x ∈ buildMonotonic pcs prev, OptLt prev x := by
  intro pcs
  induction pcs with
  | nil => intro prev; exact ⟨List.Pairwise.nil, by intro x hx; cases hx⟩
  | cons pc pcs ih =>
    intro prev
    obtain ⟨hpw, hall⟩ := ih (some (nextMonotonicPitch pc prev))
    have hp : OptLt prev (nextMonotonicPitch pc prev) := (nextMonotonicPitch_minimal pc prev).2.1
    constructor
    · exact List.Pairwise.cons (fun x hx => hall x hx) hpw
    · intro x hx
      rcases List.mem_cons.mp hx with rfl | hx
      · exact hp
      · have h2 : nextMonotonicPitch pc prev < x := hall x hx
        cases prev with
        | none => trivial
        | some q => exact lt_trans hp h2

/-- When every token parses, the first phase returns exactly the per-token JS
`% 12` values. -/
theorem tokensToPitchClasses_eq_map :
    ∀ toks : List String, (∀ t ∈ toks, (noteToMidi (t ++ "0")).isSome = true) →
      tokensToPitchClasses toks =
        some (toks.map (fun t => Int.tmod ((noteToMidi (t ++ "0")).getD 0) 12)) := by
  intro toks
  induction toks with
  | nil => intro _; rfl
  | cons t ts ih =>
    intro h
    obtain ⟨m, hm⟩ := Option.isSome_iff_exists.mp (h t (List.mem_cons_self _ _))
    rw [List.map_cons]
    simp only [tokensToPitchClasses, hm, ih (fun x hx => h x (List.mem_cons_of_mem _ hx)),
      Option.map_some', Option.getD_some]

/-- When some token fails to parse, the first phase fails. -/
theorem tokensToPitchClasses_none :
    ∀ toks : List String, (∃ t ∈ toks, noteToMidi (t ++ "0") = none) →
      tokensToPitchClasses toks = none := by
  intro toks
  induction toks with
  | nil => rintro ⟨t, ht, _⟩; cases ht
  | cons t ts ih =>
    rintro ⟨x, hx, hnone⟩
    rcases List.mem_cons.mp hx with rfl | hx
    · simp [tokensToPitchClasses, hnone]
    · cases hcase : noteToMidi (t ++ "0") with
      | none => simp [tokensToPitchClasses, hcase]
      | some m => simp [tokensToPitchClasses, hcase, ih ⟨x, hx, hnone⟩]

/-- The first phase preserves length on success. -/
theorem tokensToPitchClasses_length :
    ∀ (toks : List String) (pcs : List Int), tokensToPitchClasses toks = some pcs →
      pcs.length = toks.length := by
  intro toks
  induction toks with
  | nil => intro pcs h; cases h; rfl
  | cons t ts ih =>
    intro pcs h
    simp only [tokensToPitchClasses] at h
    cases hcase : noteToMidi (t ++ "0") with
    | none => rw [hcase] at h; cases h
    | some m =>
      rw [hcase] at h
      cases hrec : tokensToPitchClasses ts with
      | none => rw [hrec] at h; cases h
      | some pcs' =>
        rw [hrec] at h
        cases h
        simp [ih pcs' hrec]

/-! Helper lemmas about characters and the spec grammar. -/

/-- A digit character is not whitespace. -/
theorem isWhitespace_false_of_isDigit (c : Char) (h : c.isDigit = true) :
    c.isWhitespace = false := by
  cases hws : c.isWhitespace with
  | false => rfl
  | true =>
    exfalso
    simp only [Char.isWhitespace, Bool.or_eq_true, decide_eq_true_eq] at hws
    rcases hws with ((rfl | rfl) | rfl) | rfl <;> exact absurd h (by decide)

/-- A character accepted by the letter table (after upper-casing) is not
whitespace. -/
theorem isWhitespace_false_of_letter (c : Char)
    (h : (letterOffset c.toUpper).isSome = true) : c.isWhitespace = false := by
  cases hws : c.isWhitespace with
  | false => rfl
  | true =>
    exfalso
    simp only [Char.isWhitespace, Bool.or_eq_true, decide_eq_true_eq] at hws
    rcases hws with ((rfl | rfl) | rfl) | rfl <;> exact absurd h (by decide)

/-- Bounds of the semitone offset table. -/
theorem letterOffset_bounds (c : Char) (off : Int) (h : letterOffset c = some off) :
    0 ≤ off ∧ off ≤ 11 := by
  unfold letterOffset at h
  split at h <;> simp_all <;> omega

/-- Dropping while a universally false predicate drops nothing. -/
theorem dropWhile_eq_self_of_all {p : Char → Bool} (l : List Char)
    (h : ∀ c ∈ l, p c = false) : l.dropWhile p = l := by
  cases l with
  | nil => rfl
  | cons x xs => simp [List.dropWhile_cons, h x (List.mem_cons_self _ _)]

/-- Trimming a list without whitespace characters is the identity. -/
theorem trimChars_eq_self (cs : List Char) (h : ∀ c ∈ cs, c.isWhitespace = false) :
    trimChars cs = cs := by
  unfold trimChars
  rw [dropWhile_eq_self_of_all cs h,
    dropWhile_eq_self_of_all cs.reverse (fun c hc => h c (List.mem_reverse.mp hc))]
  exact List.reverse_reverse cs

/-- A non-empty all-digit octave group parses to its digit value. -/
theorem parseSignedInt_digits (cs : List Char) (hne : cs ≠ [])
    (hall : cs.all Char.isDigit = true) :
    parseSignedInt cs = some ((digitsToNat cs : Nat) : Int) := by
  rcases cs with _ | ⟨c0, cs'⟩
  · exact absurd rfl hne
  unfold parseSignedInt
  split
  · rename_i rest heq
    obtain ⟨rfl, rfl⟩ : c0 = '-' ∧ cs' = rest := by
      injection heq with h1 h2; exact ⟨h1, h2⟩
    have : ('-').isDigit = true := (List.all_eq_true.mp hall) '-' (List.mem_cons_self _ _)
    exact absurd this (by decide)
  · simp [parseDigits, hall]

/-- JS truncating remainder by 12 of a non-negative value is a pitch class. -/
theorem tmod12_bounds (m : Int) (h : 0 ≤ m) :
    0 ≤ Int.tmod m 12 ∧ Int.tmod m 12 < 12 := by
  rw [Int.tmod_eq_emod h (by norm_num)]
  exact ⟨Int.emod_nonneg m (by norm_num), Int.emod_lt_of_pos m (by norm_num)⟩


/-- Reduction of `noteToMidiChars` once the letter resolves. -/
theorem noteToMidiChars_cons (c : Char) (rest : List Char) (off : Int)
    (hoff : letterOffset c.toUpper = some off) :
    noteToMidiChars (c :: rest) =
      match rest with
      | '#' :: r => (parseSignedInt r).map (fun oct => (oct + 1) * 12 + (off + 1))
      | 'b' :: r => (parseSignedInt r).map (fun oct => (oct + 1) * 12 + (off - 1))
      | r => (parseSignedInt r).map (fun oct => (oct + 1) * 12 + off) := by
  simp only [noteToMidiChars, hoff]

/-- Reduction of `noteToMidiChars` on a sharp accidental. -/
theorem noteToMidiChars_sharp (c : Char) (r : List Char) (off : Int)
    (hoff : letterOffset c.toUpper = some off) :
    noteToMidiChars (c :: '#' :: r) =
      (parseSignedInt r).map (fun oct => (oct + 1) * 12 + (off + 1)) := by
  rw [noteToMidiChars_cons c ('#' :: r) off hoff]
  rfl

/-- Reduction of `noteToMidiChars` on a flat accidental. -/
theorem noteToMidiChars_flat (c : Char) (r : List Char) (off : Int)
    (hoff : letterOffset c.toUpper = some off) :
    noteToMidiChars (c :: 'b' :: r) =
      (parseSignedInt r).map (fun oct => (oct + 1) * 12 + (off - 1)) := by
  rw [noteToMidiChars_cons c ('b' :: r) off hoff]
  rfl

/-- Reduction of `noteToMidiChars` when no accidental follows the letter. -/
theorem noteToMidiChars_digit (c d : Char) (r : List Char) (off : Int)
    (hoff : letterOffset c.toUpper = some off) (hd : d.isDigit = true) :
    noteToMidiChars (c :: d :: r) =
      (parseSignedInt (d :: r)).map (fun oct => (oct + 1) * 12 + off) := by
  rw [noteToMidiChars_cons c (d :: r) off hoff]
  split
  · rename_i r' heq
    obtain ⟨h1, _⟩ : d = '#' ∧ r = r' := by injection heq with h1 h2; exact ⟨h1, h2⟩
    exact absurd (h1 ▸ hd) (by decide)
  · rename_i r' heq
    obtain ⟨h1, _⟩ : d = 'b' ∧ r = r' := by injection heq with h1 h2; exact ⟨h1, h2⟩
    exact absurd (h1 ▸ hd) (by decide)
  · rfl

/-- Every token of the spec grammar is accepted by `noteToMidi` once the
Normalizer's `"0"` octave is appended, and yields a non-negative MIDI value
(so its JS `% 12` pitch class lies in `0 .. 11`). -/
theorem noteToMidi_append_zero_of_grammar (tok : String) (h : specNoteGrammar tok = true) :
    ∃ m : Int, noteToMidi (tok ++ "0") = some m ∧ 0 ≤ m := by
  have hlist : (tok ++ "0").toList = tok.toList ++ ['0'] := by simp [String.toList]
  rw [noteToMidi, hlist]
  unfold specNoteGrammar at h
  rcases hcs : tok.toList with _ | ⟨c, rest⟩
  · rw [hcs] at h; simp at h
  rw [hcs] at h
  obtain ⟨hletter, hrest⟩ := Bool.and_eq_true_iff.mp h
  obtain ⟨off, hoff⟩ := Option.isSome_iff_exists.mp hletter
  obtain ⟨hoff0, _⟩ := letterOffset_bounds _ _ hoff
  rcases rest with _ | ⟨a, r⟩
  · have htrim : trimChars ((c :: []) ++ ['0']) = (c :: []) ++ ['0'] := by
      apply trimChars_eq_self
      intro x hx
      rcases List.mem_cons.mp hx with rfl | hx
      · exact isWhitespace_false_of_letter x hletter
      · rcases List.mem_cons.mp hx with rfl | hx
        · decide
        · cases hx
    rw [htrim]
    refine ⟨12 + off, ?_, by omega⟩
    show noteToMidiChars (c :: '0' :: []) = some (12 + off)
    rw [noteToMidiChars_digit c '0' [] off hoff (by decide)]
    have hps : parseSignedInt ['0'] = some ((0 : Nat) : Int) := by decide
    rw [hps]
    norm_num
  · have hif : (if (a == '#' || a == 'b') = true then r.all Char.isDigit
        else (a :: r).all Char.isDigit) = true := hrest
    by_cases hacc : (a == '#' || a == 'b') = true
    · rw [if_pos hacc] at hif
      have hallr := List.all_eq_true.mp hif
      have ha : a = '#' ∨ a = 'b' := by
        rcases Bool.or_eq_true_iff.mp hacc with h' | h'
        · exact Or.inl (by simpa using h')
        · exact Or.inr (by simpa using h')
      have htrim : trimChars ((c :: a :: r) ++ ['0']) = (c :: a :: r) ++ ['0'] := by
        apply trimChars_eq_self
        intro x hx
        simp only [List.cons_append, List.mem_cons] at hx
        rcases hx with rfl | rfl | hx
        · exact isWhitespace_false_of_letter x hletter
        · rcases ha with rfl | rfl <;> decide
        · rcases List.mem_append.mp hx with hx | hx
          · exact isWhitespace_false_of_isDigit x (hallr x hx)
          · rcases List.mem_cons.mp hx with rfl | hx
            · decide
            · cases hx
      rw [htrim]
      have hdig : (r ++ ['0']).all Char.isDigit = true := by
        rw [List.all_append]
        exact Bool.and_eq_true_iff.mpr ⟨hif, by decide⟩
      have hps := parseSignedInt_digits (r ++ ['0']) (by simp) hdig
      rcases ha with rfl | rfl
      · refine ⟨((digitsToNat (r ++ ['0']) : Nat) + 1) * 12 + (off + 1), ?_, by omega⟩
        show noteToMidiChars (c :: '#' :: (r ++ ['0'])) = _
        rw [noteToMidiChars_sharp c (r ++ ['0']) off hoff, hps]
        rfl
      · refine ⟨((digitsToNat (r ++ ['0']) : Nat) + 1) * 12 + (off - 1), ?_, by omega⟩
        show noteToMidiChars (c :: 'b' :: (r ++ ['0'])) = _
        rw [noteToMidiChars_flat c (r ++ ['0']) off hoff, hps]
        rfl
    · rw [if_neg hacc] at hif
      simp only [List.all_cons, Bool.and_eq_true] at hif
      obtain ⟨haDig, hrDig⟩ := hif
      have hallr := List.all_eq_true.mp hrDig
      have htrim : trimChars ((c :: a :: r) ++ ['0']) = (c :: a :: r) ++ ['0'] := by
        apply trimChars_eq_self
        intro x hx
        simp only [List.cons_append, List.mem_cons] at hx
        rcases hx with rfl | rfl | hx
        · exact isWhitespace_false_of_letter x hletter
        · exact isWhitespace_false_of_isDigit x haDig
        · rcases List.mem_append.mp hx with hx | hx
          · exact isWhitespace_false_of_isDigit x (hallr x hx)
          · rcases List.mem_cons.mp hx with rfl | hx
            · decide
            · cases hx
      rw [htrim]
      have hdig : (a :: (r ++ ['0'])).all Char.isDigit = true := by
        simp only [List.all_cons, List.all_append, haDig, Bool.and_eq_true, Bool.true_and]
        exact ⟨List.all_eq_true.mpr hallr, by decide⟩
      have hps := parseSignedInt_digits (a :: (r ++ ['0'])) (by simp) hdig
      refine ⟨((digitsToNat (a :: (r ++ ['0'])) : Nat) + 1) * 12 + off, ?_, by omega⟩
      show noteToMidiChars (c :: a :: (r ++ ['0'])) = _
      rw [noteToMidiChars_digit c a (r ++ ['0']) off hoff haDig, hps]
      rfl

/-! Claim theorems. -/

/-- C1: for every non-empty sequence of absolute tunings (each six integers,
none `null`), `isTranspositionPossible` returns `true` exactly when the
globally intersected shift window (across all strings and all tunings) is
non-empty, equivalently exactly when a single integer transposition `T` keeps
`minPitchPerString[i] <= t[i] + T <= maxPitchPerString[i]` for every string
`i` of every tuning `t` in the sequence. -/
theorem isFeasible_iff_global_window (c : Constraints) (ps : List (List Int))
    (_hne : ps ≠ []) (_hlen : ∀ t ∈ ps, t.length = 6) :
    (isTranspositionPossible c (ps.map some) = true ↔
        leOpt (foldMax (windowLowers c ps)) (foldMin (windowUppers c ps)) = true) ∧
    (isTranspositionPossible c (ps.map some) = true ↔
        ∃ T : Int, ∀ t ∈ ps, ∀ i, i < 6 →
          c.minPitchPerString.getD i 0 ≤ t.getD i 0 + T ∧
            t.getD i 0 + T ≤ c.maxPitchPerString.getD i 0) := by
  constructor
  · have hany : (ps.map some).any (fun p => p.isNone) = false := by simp
    have hfm : (ps.map some).filterMap id = ps := by simp [List.filterMap_map]
    rw [isTranspositionPossible, hany]
    simp only [Bool.false_eq_true, if_false, hfm]
  · exact isTranspositionPossible_iff_exists c ps

/-- C1 witness: the standard-tuning absolute pitches sit inside the default
constraint window (transposition `0` works). -/
theorem isFeasible_iff_global_window_witness :
    isTranspositionPossible defaultConstraints ([[40, 45, 50, 55, 59, 64]].map some) = true :=
  ((isFeasible_iff_global_window defaultConstraints [[40, 45, 50, 55, 59, 64]]
    (by decide) (by decide)).2).mpr ⟨0, by decide⟩

/-- C6: feasibility is closed under non-empty prefixes — dropping tunings from
the end of a feasible simulated sequence keeps it feasible, because removing
rows only removes shift windows from the global intersection. -/
theorem isFeasible_prefix_closed (c : Constraints) (ps : List (List Int)) (n : Nat)
    (_hlen : ∀ t ∈ ps, t.length = 6) (_hne : ps.take n ≠ [])
    (hfeas : isTranspositionPossible c (ps.map some) = true) :
    isTranspositionPossible c ((ps.take n).map some) = true := by
  rw [isTranspositionPossible_iff_exists] at hfeas ⊢
  obtain ⟨T, hT⟩ := hfeas
  exact ⟨T, fun t ht i hi => hT t (List.mem_of_mem_take ht) i hi⟩

/-- C6 witness: a feasible two-tuning sequence stays feasible after dropping
the second tuning. -/
theorem isFeasible_prefix_closed_witness :
    isTranspositionPossible defaultConstraints
      (([[40, 45, 50, 55, 59, 64], [38, 43, 48, 53, 57, 62]].take 1).map some) = true :=
  isFeasible_prefix_closed defaultConstraints [[40, 45, 50, 55, 59, 64], [38, 43, 48, 53, 57, 62]]
    1 (by decide) (by decide) (by decide)

/-- C2: the initial-transposition step of `simulateAbsolutePitches` computes
`lower` as the maximum of `minPitchPerString[i] - t[i]` and `upper` as the
minimum of `maxPitchPerString[i] - t[i]` over the six strings, fails exactly
when `lower > upper`, and otherwise returns `floor(upper) = upper` — the
maximum integer transposition satisfying every per-string bound, so the first
absolute tuning `t[i] + T` lies inside every window. Determinism is recorded
by the final reflexive conjunct: the computation is a pure function of its
two inputs. -/
theorem initialTransposition_spec (c : Constraints) (t : List Int) (_ht : t.length = 6)
    (_hmin : c.minPitchPerString.length = 6) (_hmax : c.maxPitchPerString.length = 6) :
    (∃ L U, foldMax (initLowers c t) = some L ∧ foldMin (initUppers c t) = some U ∧
      (∀ i, i < 6 → c.minPitchPerString.getD i 0 - t.getD i 0 ≤ L ∧
          U ≤ c.maxPitchPerString.getD i 0 - t.getD i 0) ∧
      (∃ i, i < 6 ∧ L = c.minPitchPerString.getD i 0 - t.getD i 0) ∧
      (∃ i, i < 6 ∧ U = c.maxPitchPerString.getD i 0 - t.getD i 0) ∧
      (initialTransposition c t = none ↔ U < L) ∧
      (∀ T, initialTransposition c t = some T → T = U)) ∧
    (∀ T, initialTransposition c t = some T →
      (∀ i, i < 6 → c.minPitchPerString.getD i 0 ≤ t.getD i 0 + T ∧
          t.getD i 0 + T ≤ c.maxPitchPerString.getD i 0) ∧
      (∀ T' : Int, (∀ i, i < 6 → c.minPitchPerString.getD i 0 ≤ t.getD i 0 + T' ∧
          t.getD i 0 + T' ≤ c.maxPitchPerString.getD i 0) → T' ≤ T)) ∧
    initialTransposition c t = initialTransposition c t := by
  obtain ⟨L, hL, hLub, hLmem⟩ := foldMax_ne_nil (initLowers c t) (by simp [initLowers])
  obtain ⟨U, hU, hUlb, hUmem⟩ := foldMin_ne_nil (initUppers c t) (by simp [initUppers])
  have memLow : ∀ i, i < 6 → (c.minPitchPerString.getD i 0 - t.getD i 0) ∈ initLowers c t := by
    intro i hi
    simp only [initLowers, List.mem_map, List.mem_range]
    exact ⟨i, hi, rfl⟩
  have memUp : ∀ i, i < 6 → (c.maxPitchPerString.getD i 0 - t.getD i 0) ∈ initUppers c t := by
    intro i hi
    simp only [initUppers, List.mem_map, List.mem_range]
    exact ⟨i, hi, rfl⟩
  have hLform : ∃ i, i < 6 ∧ L = c.minPitchPerString.getD i 0 - t.getD i 0 := by
    simp only [initLowers, List.mem_map, List.mem_range] at hLmem
    obtain ⟨i, hi, hEq⟩ := hLmem
    exact ⟨i, hi, hEq.symm⟩
  have hUform : ∃ i, i < 6 ∧ U = c.maxPitchPerString.getD i 0 - t.getD i 0 := by
    simp only [initUppers, List.mem_map, List.mem_range] at hUmem
    obtain ⟨i, hi, hEq⟩ := hUmem
    exact ⟨i, hi, hEq.symm⟩
  have hnone : initialTransposition c t = none ↔ U < L := by
    rw [initialTransposition, hL, hU]
    by_cases hLU : L > U
    · simp [hLU]
    · simp [hLU]
  have hsome : ∀ T, initialTransposition c t = some T → T = U := by
    intro T hT
    rw [initialTransposition, hL, hU] at hT
    by_cases hLU : L > U
    · simp [hLU] at hT
    · simp [hLU] at hT
      exact hT.symm
  refine ⟨⟨L, U, hL, hU, ?_, hLform, hUform, hnone, hsome⟩, ?_, rfl⟩
  · exact fun i hi => ⟨hLub _ (memLow i hi), hUlb _ (memUp i hi)⟩
  · intro T hT
    have hTU : T = U := hsome T hT
    have hLU : ¬ U < L := fun hc => by
      rw [hnone.mpr hc] at hT
      cases hT
    constructor
    · intro i hi
      have h1 := hLub _ (memLow i hi)
      have h2 := hUlb _ (memUp i hi)
      omega
    · intro T' hT'
      obtain ⟨j, hj, hUj⟩ := hUform
      have := (hT' j hj).2
      omega

/-- C2 witness: standard tuning with default constraints transposes by `36`,
landing string 0 inside its window. -/
theorem initialTransposition_spec_witness :
    initialTransposition defaultConstraints [4, 9, 14, 19, 23, 28] = some 36 ∧
    defaultConstraints.minPitchPerString.getD 0 0 ≤ [4, 9, 14, 19, 23, 28].getD 0 0 + 36 ∧
    [4, 9, 14, 19, 23, 28].getD 0 0 + 36 ≤ defaultConstraints.maxPitchPerString.getD 0 0 := by
  have h := ((initialTransposition_spec defaultConstraints [4, 9, 14, 19, 23, 28]
    (by decide) (by decide) (by decide)).2.1 36 (by decide)).1 0 (by decide)
  exact ⟨by decide, h.1, h.2⟩

/-- Kernel-checked round trip over the full MIDI range `0 .. 127`. -/
theorem noteToMidi_midiToNote_fin :
    ∀ n : Fin 128, noteToMidi (midiToNote ((n : Nat) : Int)) = some ((n : Nat) : Int) := by
  decide

/-- C7: the note-name conversion round-trips on every MIDI pitch
`0 <= p <= 127`: `noteToMidi (midiToNote p) = p`. -/
theorem noteToMidi_midiToNote_roundtrip (p : Int) (h0 : 0 ≤ p) (h1 : p ≤ 127) :
    noteToMidi (midiToNote p) = some p := by
  have hn : ((p.toNat : Nat) : Int) = p := Int.toNat_of_nonneg h0
  have hlt : p.toNat < 128 := by omega
  have h := noteToMidi_midiToNote_fin ⟨p.toNat, hlt⟩
  rw [hn] at h
  exact h

/-- C7 witness: the round trip at middle C. -/
theorem noteToMidi_midiToNote_roundtrip_witness : noteToMidi (midiToNote 60) = some 60 :=
  noteToMidi_midiToNote_roundtrip 60 (by norm_num) (by norm_num)

/-- Setting one list entry leaves the value read at any other index
unchanged. -/
theorem getD_set_ne (l : List Int) (i j : Nat) (v : Int) (h : j ≠ i) :
    (l.set i v).getD j 0 = l.getD j 0 := by
  rw [List.getD_eq_getElem?_getD, List.getD_eq_getElem?_getD,
    List.getElem?_set_ne (by omega)]

/-- C9: a constraint update parses the supplied pitch with `noteToMidi`; on
parse failure it reports the error indication and leaves both constraint
arrays untouched, and on success it reports success, overwrites exactly the
addressed entry of the addressed array, and leaves the other array and every
other entry unchanged. -/
theorem setConstraint_atomic (c : Constraints) (i : Nat) (b : Bound) (pitch : String)
    (_hi : i < 6) :
    (noteToMidi pitch = none → setConstraint c i b pitch = (c, false)) ∧
    (∀ m, noteToMidi pitch = some m →
      (setConstraint c i b pitch).2 = true ∧
      (b = Bound.min →
        (setConstraint c i b pitch).1.minPitchPerString = c.minPitchPerString.set i m ∧
        (setConstraint c i b pitch).1.maxPitchPerString = c.maxPitchPerString) ∧
      (b = Bound.max →
        (setConstraint c i b pitch).1.maxPitchPerString = c.maxPitchPerString.set i m ∧
        (setConstraint c i b pitch).1.minPitchPerString = c.minPitchPerString) ∧
      (∀ j, j ≠ i →
        (setConstraint c i b pitch).1.minPitchPerString.getD j 0 =
          c.minPitchPerString.getD j 0 ∧
        (setConstraint c i b pitch).1.maxPitchPerString.getD j 0 =
          c.maxPitchPerString.getD j 0)) := by
  constructor
  · intro hnone
    simp [setConstraint, hnone]
  · intro m hm
    cases b with
    | min =>
      refine ⟨?_, ?_, ?_, ?_⟩
      · simp [setConstraint, hm]
      · intro _
        exact ⟨by simp [setConstraint, hm], by simp [setConstraint, hm]⟩
      · intro hb; cases hb
      · intro j hj
        constructor
        · simp only [setConstraint, hm]
          exact getD_set_ne _ i j m hj
        · simp [setConstraint, hm]
    | max =>
      refine ⟨?_, ?_, ?_, ?_⟩
      · simp [setConstraint, hm]
      · intro hb; cases hb
      · intro _
        exact ⟨by simp [setConstraint, hm], by simp [setConstraint, hm]⟩
      · intro j hj
        constructor
        · simp [setConstraint, hm]
        · simp only [setConstraint, hm]
          exact getD_set_ne _ i j m hj

/-- C9 witness: updating string 2's minimum to `"C3"` (MIDI 48) succeeds and
leaves string 0's minimum alone, while a malformed pitch is rejected
unchanged. -/
theorem setConstraint_atomic_witness :
    setConstraint defaultConstraints 2 Bound.min "oops" = (defaultConstraints, false) ∧
    (setConstraint defaultConstraints 2 Bound.min "C3").2 = true ∧
    (setConstraint defaultConstraints 2 Bound.min "C3").1.minPitchPerString.getD 0 0 =
      defaultConstraints.minPitchPerString.getD 0 0 := by
  refine ⟨(setConstraint_atomic defaultConstraints 2 Bound.min "oops" (by decide)).1 (by decide),
    ((setConstraint_atomic defaultConstraints 2 Bound.min "C3" (by decide)).2 48 (by decide)).1,
    (((setConstraint_atomic defaultConstraints 2 Bound.min "C3" (by decide)).2 48
      (by decide)).2.2.2 0 (by decide)).1⟩

/-- C4: `canAddNode` satisfies its three-case contract — unconditionally true
on an empty path, false for a candidate not adjacent to the last path node,
and otherwise true exactly when the simulation of the extended path succeeds
and `isTranspositionPossible` holds of the simulated sequence. -/
theorem canAddNode_contract (net : Network) (c : Constraints) (path : List Nat)
    (cand : Nat) :
    (path = [] → canAddNode net c path cand = true) ∧
    (path ≠ [] → cand ∉ getAdjacentNodes net (jsLast path) →
      canAddNode net c path cand = false) ∧
    (path ≠ [] → cand ∈ getAdjacentNodes net (jsLast path) →
      (canAddNode net c path cand = true ↔
        ∃ ps, simulateAbsolutePitches net c (path ++ [cand]) = some ps ∧
          isTranspositionPossible c (ps.map some) = true)) := by
  refine ⟨?_, ?_, ?_⟩
  · rintro rfl; rfl
  · intro hne hnotmem
    have hlen : ¬ path.length = 0 := by simpa [List.length_eq_zero] using hne
    have hcontains : (getAdjacentNodes net (jsLast path)).contains cand = false := by
      simpa using hnotmem
    rw [canAddNode, if_neg hlen]
    simp only [hcontains, Bool.not_false, if_true]
  · intro hne hmem
    have hlen : ¬ path.length = 0 := by simpa [List.length_eq_zero] using hne
    have hcontains : (getAdjacentNodes net (jsLast path)).contains cand = true := by
      simpa using hmem
    rw [canAddNode, if_neg hlen]
    simp only [hcontains, Bool.not_true, Bool.false_eq_true, if_false]
    cases hsim : simulateAbsolutePitches net c (path ++ [cand]) with
    | none => simp
    | some ps => simp

/-- Concrete two-node network used by witnesses: standard tuning linked to
drop-D by a stored delta vector lowering string 6 by two semitones. -/
def demoNet : Network :=
  ⟨fun n => if n = 0 then some ⟨some "E A D G B E"⟩
    else if n = 1 then some ⟨some "D A D G B E"⟩ else none,
   [⟨0, 1, some [-2, 0, 0, 0, 0, 0]⟩]⟩

/-- C4 witness: on the demo network the empty path accepts anything, a
non-adjacent candidate is refused, and the adjacent drop-D node is accepted
because its simulation stays inside the default constraints. -/
theorem canAddNode_contract_witness :
    canAddNode demoNet defaultConstraints [] 0 = true ∧
    canAddNode demoNet defaultConstraints [0] 7 = false ∧
    canAddNode demoNet defaultConstraints [0] 1 = true := by
  refine ⟨(canAddNode_contract demoNet defaultConstraints [] 0).1 rfl,
    (canAddNode_contract demoNet defaultConstraints [0] 7).2.1 (by decide) (by decide),
    ((canAddNode_contract demoNet defaultConstraints [0] 1).2.2 (by decide) (by decide)).mpr
      ⟨[[40, 45, 50, 55, 59, 64], [38, 45, 50, 55, 59, 64]], by decide, by decide⟩⟩

/-- Matching predicate of `getPitchVector` is symmetric in the two query
nodes. -/
theorem edgeMatches_comm (a b : Nat) (e : EdgeData) :
    edgeMatches a b e = edgeMatches b a e := by
  have h : ∀ x y u v : Bool, (x && y || (u && v)) = ((v && u) || (y && x)) := by decide
  exact h _ _ _ _

/-- Searching with pointwise-equal predicates finds the same element. -/
theorem find?_congr {α : Type} (l : List α) (p q : α → Bool) (h : ∀ x, p x = q x) :
    l.find? p = l.find? q := by
  induction l with
  | nil => rfl
  | cons x xs ih =>
    cases hq : q x
    · rw [List.find?_cons_of_neg _ (by simp [h x, hq]),
        List.find?_cons_of_neg _ (by simp [hq]), ih]
    · rw [List.find?_cons_of_pos _ (by simp [h x, hq]),
        List.find?_cons_of_pos _ (by simp [hq])]

/-- C8: for distinct nodes connected by a stored edge carrying a pitch
vector, `getPitchVector A B` returns the stored vector when the edge is
stored `A -> B` and its element-wise negation when stored `B -> A`; in either
case `getPitchVector B A` is the element-wise negation of
`getPitchVector A B`. -/
theorem getPitchVector_antisymm (net : Network) (A B : Nat) (hAB : A ≠ B)
    (e : EdgeData) (hfind : net.edges.find? (edgeMatches A B) = some e)
    (w : List Int) (hw : e.pitch_vector = some w) :
    (e.src = A → e.dst = B → getPitchVector net A B = some w ∧
        getPitchVector net B A = some (w.map (fun x => -x))) ∧
    (e.src = B → e.dst = A → getPitchVector net A B = some (w.map (fun x => -x)) ∧
        getPitchVector net B A = some w) ∧
    getPitchVector net B A = (getPitchVector net A B).map (List.map (fun x => -x)) := by
  have hfind' : net.edges.find? (edgeMatches B A) = some e := by
    rw [find?_congr _ _ _ (fun x => edgeMatches_comm B A x)]
    exact hfind
  have hmatch : (e.src = A ∧ e.dst = B) ∨ (e.dst = A ∧ e.src = B) := by
    have := List.find?_some hfind
    simpa [edgeMatches, Bool.or_eq_true, Bool.and_eq_true, beq_iff_eq] using this
  have hfwd : ∀ X Y : Nat, net.edges.find? (edgeMatches X Y) = some e → e.src = X →
      getPitchVector net X Y = some w := by
    intro X Y hf hsrc
    simp [getPitchVector, hf, hw, hsrc]
  have hbwd : ∀ X Y : Nat, net.edges.find? (edgeMatches X Y) = some e → e.src ≠ X →
      getPitchVector net X Y = some (w.map (fun x => -x)) := by
    intro X Y hf hsrc
    simp [getPitchVector, hf, hw, hsrc]
  refine ⟨?_, ?_, ?_⟩
  · intro h1 h2
    exact ⟨hfwd A B hfind h1, hbwd B A hfind' (by omega)⟩
  · intro h1 h2
    exact ⟨hbwd A B hfind (by omega), hfwd B A hfind' h1⟩
  · rcases hmatch with ⟨h1, h2⟩ | ⟨h1, h2⟩
    · rw [hfwd A B hfind h1, hbwd B A hfind' (by omega)]
      rfl
    · rw [hbwd A B hfind (by omega), hfwd B A hfind' h2]
      simp

/-- C8 witness: on the demo network the stored `0 -> 1` vector is returned as
is in the stored direction and negated in the reverse direction. -/
theorem getPitchVector_antisymm_witness :
    getPitchVector demoNet 0 1 = some [-2, 0, 0, 0, 0, 0] ∧
    getPitchVector demoNet 1 0 = some [2, 0, 0, 0, 0, 0] := by
  have h := (getPitchVector_antisymm demoNet 0 1 (by decide)
    ⟨0, 1, some [-2, 0, 0, 0, 0, 0]⟩ (by decide) [-2, 0, 0, 0, 0, 0] rfl).1 rfl rfl
  refine ⟨h.1, ?_⟩
  have h2 := h.2
  simpa using h2

/-- Shared Normalizer result for labels whose tokens all match the spec
grammar: the parse succeeds, the pitch classes all lie in `0 .. 11`, and the
result is the strictly increasing minimal realization, one pitch per token. -/
theorem parseMonotonicTuning_of_grammar (label : String)
    (hgram : ∀ tok ∈ jsTokenize label, specNoteGrammar tok = true) :
    ∃ pcs ps, tokensToPitchClasses (jsTokenize label) = some pcs ∧
      (∀ pc ∈ pcs, 0 ≤ pc ∧ pc < 12) ∧
      parseMonotonicTuning label = some ps ∧
      ps.length = (jsTokenize label).length ∧
      List.Pairwise (· < ·) ps ∧ MinimalChain pcs none ps := by
  have hsome : ∀ tok ∈ jsTokenize label, (noteToMidi (tok ++ "0")).isSome = true := by
    intro tok ht
    obtain ⟨m, hm, _⟩ := noteToMidi_append_zero_of_grammar tok (hgram tok ht)
    simp [hm]
  have hpcs := tokensToPitchClasses_eq_map _ hsome
  refine ⟨_, buildMonotonic _ none, hpcs, ?_, ?_, ?_, (buildMonotonic_pairwise _ none).1,
    buildMonotonic_minimalChain _ none⟩
  · intro pc hpc
    rcases List.mem_map.mp hpc with ⟨tok, ht, rfl⟩
    obtain ⟨m, hm, hm0⟩ := noteToMidi_append_zero_of_grammar tok (hgram tok ht)
    rw [hm, Option.getD_some]
    exact tmod12_bounds m hm0
  · rw [parseMonotonicTuning, hpcs]
  · rw [buildMonotonic_length, List.length_map]

/-- C3 counterexample: the token `"E-1"` fails the spec's note-name grammar
(`[A-G][#b]?` plus optional octave digits allows no minus sign), yet
`parseMonotonicTuning` accepts a label made of six such tokens instead of
returning an explicit failure — the appended `"0"` turns `"E-1"` into the
regex-valid `"E-10"`. Worse, the first produced value is `-8`, which is not
`12 * k + pc` for any pitch class `pc` in `0 .. 11` and octave `k >= 0`, so
the claim fails under either reading of "the note-name grammar". -/
theorem parseMonotonicTuning_grammar_counterexample :
    specNoteGrammar "E-1" = false ∧
    "E-1" ∈ jsTokenize "E-1 E-1 E-1 E-1 E-1 E-1" ∧
    (jsTokenize "E-1 E-1 E-1 E-1 E-1 E-1").length = 6 ∧
    parseMonotonicTuning "E-1 E-1 E-1 E-1 E-1 E-1" = some [-8, 4, 16, 28, 40, 52] ∧
    ((-8 : Int) < 0) := by
  refine ⟨by decide, by decide, by decide, by decide, by decide⟩

/-- C3 (amended): for every label of six whitespace-separated tokens each
matching the spec note-name grammar, `parseMonotonicTuning` returns a strictly
increasing sequence of six integers in which each element is the smallest
value `12 * k + pc` (octave `k >= 0`, `pc` the token's pitch class in
`0 .. 11`) strictly above its predecessor, the first being its pitch class
itself; and it returns an explicit failure exactly on the parser's own
acceptance condition — when some token is rejected by
`noteToMidi (token ++ "0")` (which also accepts some tokens outside the spec
grammar, e.g. with negative octave suffixes). -/
theorem parseMonotonicTuning_normalizes :
    (∀ label : String, (jsTokenize label).length = 6 →
      (∀ tok ∈ jsTokenize label, specNoteGrammar tok = true) →
      ∃ pcs ps, tokensToPitchClasses (jsTokenize label) = some pcs ∧
        (∀ pc ∈ pcs, 0 ≤ pc ∧ pc < 12) ∧
        parseMonotonicTuning label = some ps ∧
        ps.length = 6 ∧ List.Pairwise (· < ·) ps ∧ MinimalChain pcs none ps) ∧
    (∀ label : String, (∃ tok ∈ jsTokenize label, noteToMidi (tok ++ "0") = none) →
      parseMonotonicTuning label = none) := by
  constructor
  · intro label hlen hgram
    obtain ⟨pcs, ps, h1, h2, h3, h4, h5, h6⟩ := parseMonotonicTuning_of_grammar label hgram
    exact ⟨pcs, ps, h1, h2, h3, by rw [h4, hlen], h5, h6⟩
  · intro label hbad
    rw [parseMonotonicTuning, tokensToPitchClasses_none _ hbad]

/-- C3 witness: the standard-tuning label normalizes successfully and a label
with the non-note token `"H"` fails explicitly. -/
theorem parseMonotonicTuning_normalizes_witness :
    (parseMonotonicTuning "E A D G B E").isSome = true ∧
    parseMonotonicTuning "E H D G B E" = none := by
  constructor
  · obtain ⟨pcs, ps, _, _, h3, _, _, _⟩ :=
      parseMonotonicTuning_normalizes.1 "E A D G B E" (by decide) (by decide)
    rw [h3]
    rfl
  · exact parseMonotonicTuning_normalizes.2 "E H D G B E" ⟨"H", by decide, by decide⟩

/-- C10: the Normalizer never checks the token count — every label whose
tokens all match the note-name grammar parses to a strictly increasing
sequence with exactly one pitch per token, whatever the count. -/
theorem parseMonotonicTuning_ignores_count (label : String)
    (hgram : ∀ tok ∈ jsTokenize label, specNoteGrammar tok = true) :
    ∃ ps, parseMonotonicTuning label = some ps ∧
      ps.length = (jsTokenize label).length ∧ List.Pairwise (· < ·) ps := by
  obtain ⟨pcs, ps, _, _, h3, h4, h5, _⟩ := parseMonotonicTuning_of_grammar label hgram
  exact ⟨ps, h3, h4, h5⟩

/-- C10 witness: a two-token label yields a two-element increasing sequence
rather than a failure. -/
theorem parseMonotonicTuning_ignores_count_witness :
    (parseMonotonicTuning "E A").isSome = true ∧
    parseMonotonicTuning "E A" = some [4, 9] ∧ (jsTokenize "E A").length = 2 := by
  obtain ⟨ps, h1, _, _⟩ := parseMonotonicTuning_ignores_count "E A" (by decide)
  exact ⟨by rw [h1]; rfl, by decide, by decide⟩

/-- The edge-walking loop fails whenever some traversed pair has no pitch
vector. -/
theorem simSteps_none_of_missing (net : Network) :
    ∀ (pairs : List (Nat × Nat)) (current : List Int),
      (∃ pr ∈ pairs, getPitchVector net pr.1 pr.2 = none) →
      simSteps net current pairs = none := by
  intro pairs
  induction pairs with
  | nil => rintro current ⟨pr, hpr, _⟩; cases hpr
  | cons hd tl ih =>
    rintro current ⟨pr, hpr, hnone⟩
    rcases hd with ⟨f, t⟩
    rcases List.mem_cons.mp hpr with rfl | hpr
    · simp [simSteps, hnone]
    · cases hv : getPitchVector net f t with
      | none => simp [simSteps, hv]
      | some v => simp [simSteps, hv, ih _ ⟨pr, hpr, hnone⟩]

/-- Consecutive path entries read by the loop are exactly the entries of
`path.zip path.tail`. -/
theorem pair_mem_zip_tail (path : List Nat) (i : Nat) (h : i + 1 < path.length) :
    (path.getD i 0, path.getD (i + 1) 0) ∈ path.zip path.tail := by
  have htail : path.tail.length = path.length - 1 := List.length_tail path
  have hmin : (path.zip path.tail).length = path.length - 1 := by
    rw [List.length_zip, htail]
    omega
  have hilt : i < path.length := by omega
  have hi : i < (path.zip path.tail).length := by omega
  have hi1 : i < path.tail.length := by omega
  have hzip : (path.zip path.tail)[i] = (path[i], path.tail[i]) := List.getElem_zip
  have htl : path.tail[i] = path[i + 1] := List.getElem_tail path i hi1
  have hd1 : path.getD i 0 = path[i] := by
    rw [List.getD_eq_getElem?_getD, List.getElem?_eq_getElem hilt]
    rfl
  have hd2 : path.getD (i + 1) 0 = path[i + 1] := by
    rw [List.getD_eq_getElem?_getD, List.getElem?_eq_getElem h]
    rfl
  rw [hd1, hd2, ← htl, ← hzip]
  exact List.getElem_mem hi

/-- C5 networks: one with no node data at all, and one with two labelled
nodes but no edge between them. -/
def bareNet : Network := ⟨fun _ => none, []⟩

/-- Two labelled tuning nodes with no connecting edge. -/
def edgelessNet : Network :=
  ⟨fun n => if n = 0 then some ⟨some "E A D G B E"⟩
    else if n = 1 then some ⟨some "D A D G B E"⟩ else none, []⟩

/-- Constraint set whose windows cannot all be met by one transposition of the
standard relative tuning (string 6 must stay at least as high as string 1 may
go). -/
def contradictoryConstraints : Constraints :=
  ⟨[100, 41, 46, 51, 55, 60], [40, 45, 50, 55, 59, 64]⟩

/-- C5 counterexample: the three failure kinds — missing first-node tuning
data, missing edge vector between consecutive nodes, and constraints
unsatisfiable at the first node — all return the very same value `none`
(JS `null`), so the caller cannot distinguish them from the result. -/
theorem simulateAbsolutePitches_failures_indistinguishable :
    simulateAbsolutePitches bareNet defaultConstraints [0] = none ∧
    simulateAbsolutePitches edgelessNet defaultConstraints [0, 1] = none ∧
    simulateAbsolutePitches edgelessNet contradictoryConstraints [0] = none ∧
    bareNet.nodes 0 = none ∧
    edgelessNet.nodes 0 = some ⟨some "E A D G B E"⟩ ∧
    getPitchVector edgelessNet 0 1 = none ∧
    parseMonotonicTuning "E A D G B E" = some [4, 9, 14, 19, 23, 28] ∧
    initialTransposition contradictoryConstraints [4, 9, 14, 19, 23, 28] = none := by
  refine ⟨by decide, by decide, by decide, by decide, by decide, by decide, by decide, by decide⟩

/-- C5 (amended): `simulateAbsolutePitches` collapses every failure kind to
the single value `none` — missing or unparsable first-node tuning data,
constraints unsatisfiable at the first node, and a missing edge or vector
along the path all produce the same result. -/
theorem simulateAbsolutePitches_failures_collapse (net : Network) (c : Constraints)
    (path : List Nat) :
    (path ≠ [] →
      (net.nodes (path.getD 0 0) = none ∨
        (∃ node, net.nodes (path.getD 0 0) = some node ∧ node.tuning_label = none) ∨
        (∃ node lbl, net.nodes (path.getD 0 0) = some node ∧ node.tuning_label = some lbl ∧
          parseMonotonicTuning lbl = none)) →
      simulateAbsolutePitches net c path = none) ∧
    (path ≠ [] →
      (∃ node lbl t, net.nodes (path.getD 0 0) = some node ∧ node.tuning_label = some lbl ∧
        parseMonotonicTuning lbl = some t ∧ initialTransposition c t = none) →
      simulateAbsolutePitches net c path = none) ∧
    ((∃ i, i + 1 < path.length ∧
        getPitchVector net (path.getD i 0) (path.getD (i + 1) 0) = none) →
      simulateAbsolutePitches net c path = none) := by
  refine ⟨?_, ?_, ?_⟩
  · intro hne hfail
    rcases path with _ | ⟨p0, rest⟩
    · exact absurd rfl hne
    rcases hfail with hn | ⟨node, hn, hl⟩ | ⟨node, lbl, hn, hl, hp⟩
    · simp only [List.getD_cons_zero] at hn
      simp [simulateAbsolutePitches, hn]
    · simp only [List.getD_cons_zero] at hn
      simp [simulateAbsolutePitches, hn, hl]
    · simp only [List.getD_cons_zero] at hn
      simp [simulateAbsolutePitches, hn, hl, hp]
  · intro hne hfail
    rcases path with _ | ⟨p0, rest⟩
    · exact absurd rfl hne
    rcases hfail with ⟨node, lbl, t, hn, hl, hp, hT⟩
    simp only [List.getD_cons_zero] at hn
    simp [simulateAbsolutePitches, hn, hl, hp, hT]
  · rintro ⟨i, hi, hnone⟩
    have hmem : (path.getD i 0, path.getD (i + 1) 0) ∈ path.zip path.tail :=
      pair_mem_zip_tail path i hi
    have hsteps : ∀ current, simSteps net current (path.zip path.tail) = none :=
      fun current => simSteps_none_of_missing net _ current ⟨_, hmem, hnone⟩
    rcases path with _ | ⟨p0, rest⟩
    · simp at hi
    rw [simulateAbsolutePitches]
    cases hn : net.nodes p0 with
    | none => rfl
    | some node =>
      cases hl : node.tuning_label with
      | none => simp [hl]
      | some lbl =>
        cases hp : parseMonotonicTuning lbl with
        | none => simp [hl, hp]
        | some t =>
          cases hT : initialTransposition c t with
          | none => simp [hl, hp, hT]
          | some T =>
            have hs := hsteps (List.map (fun x => x + T) t)
            simp only [List.tail_cons] at hs
            simp [hl, hp, hT, hs]

/-- C5 witness: the amended collapse theorem applied to concrete failing
inputs of two different kinds. -/
theorem simulateAbsolutePitches_failures_collapse_witness :
    simulateAbsolutePitches bareNet defaultConstraints [2] = none ∧
    simulateAbsolutePitches edgelessNet defaultConstraints [1, 0] = none := by
  constructor
  · exact (simulateAbsolutePitches_failures_collapse bareNet defaultConstraints [2]).1
      (by decide) (Or.inl (by decide))
  · exact (simulateAbsolutePitches_failures_collapse edgelessNet defaultConstraints [1, 0]).2.2
      ⟨0, by decide, by decide⟩
